import Mathlib

/-!
Verification of the heuristic translatable-text extraction engine
(storyline_loc_estimator.py) and the XLIFF trans-unit partitioner
(storyline_xliff_splitter.py).

The Python sources are shallowly embedded below.  Pure helper functions
become Lean functions on String / List Char / List Nat; the external
collaborators named by the spec (zip container reader, ElementTree XML
parser, json decoder, regular-expression engine) are modelled either as
explicit oracle parameters or as small executable models whose doc
comments record what is being modelled.
-/

namespace Storyline

/-- The space character, written via its code point. -/
def SP : Char := Char.ofNat 32

/-- Modelled from the spec: the whitespace class used by the reference
implementation for collapsing and trimming (Python regex backslash-s with
the Unicode flag, and str.strip), i.e. ASCII whitespace, the C1 separators,
NEL, NBSP and the Unicode space/separator code points. -/
def pyIsSpace (c : Char) : Bool :=
  let n := c.toNat
  n == 32 || (9 ≤ n && n ≤ 13) || (28 ≤ n && n ≤ 31) || n == 133 || n == 160 ||
  n == 5760 || (8192 ≤ n && n ≤ 8202) || n == 8232 || n == 8233 ||
  n == 8239 || n == 8287 || n == 12288

/-- One pass of `WS_RE.sub(' ', s)`: every maximal run of whitespace is
replaced by a single space.  The boolean records whether the previous
character belonged to a whitespace run. -/
def subWsAux : Bool → List Char → List Char
  | _, [] => []
  | prevWs, c :: cs =>
    if pyIsSpace c then
      if prevWs then subWsAux true cs else SP :: subWsAux true cs
    else c :: subWsAux false cs

/-- Drop trailing whitespace (the tail half of Python str.strip). -/
def pyDropTrail (l : List Char) : List Char :=
  (l.reverse.dropWhile pyIsSpace).reverse

/-- Python str.strip(): drop leading and trailing whitespace. -/
def pyStrip (l : List Char) : List Char :=
  pyDropTrail (l.dropWhile pyIsSpace)

/-- Modelled from the spec: the entity table of the underlying HTML
entity decoder (html.unescape), restricted to a core set of named and
numeric references, each with its terminating semicolon. -/
def entityTable : List (String × Char) :=
  [("amp;", Char.ofNat 38), ("lt;", Char.ofNat 60), ("gt;", Char.ofNat 62),
   ("quot;", Char.ofNat 34), ("apos;", Char.ofNat 39),
   ("nbsp;", Char.ofNat 160), ("#39;", Char.ofNat 39), ("#160;", Char.ofNat 160)]

/-- Try to read one entity reference (the part after the ampersand) at the
head of the character list; on success return the decoded character and the
remaining input. -/
def findEntity (l : List Char) : Option (Char × List Char) :=
  (entityTable.filterMap fun e =>
    if e.1.data.isPrefixOf l then some (e.2, l.drop e.1.data.length) else none).head?

/-- Modelled from the spec: html.unescape as a single left-to-right pass;
each recognised entity reference is replaced once and scanning resumes
after it, so the output is never rescanned.  Fuel equals the input length,
which every step strictly decreases. -/
def pyUnescapeAux : Nat → List Char → List Char
  | 0, l => l
  | _ + 1, [] => []
  | fuel + 1, c :: cs =>
    if c == Char.ofNat 38 then
      match findEntity cs with
      | some (r, rest) => r :: pyUnescapeAux fuel rest
      | none => c :: pyUnescapeAux fuel cs
    else c :: pyUnescapeAux fuel cs

def pyUnescape (s : String) : String := ⟨pyUnescapeAux s.data.length s.data⟩

/-- normalize_text from the source: unescape entities, replace NBSP by a
plain space, collapse whitespace runs to single spaces, strip the ends. -/
def normalize_text (s : String) : String :=
  ⟨pyStrip (subWsAux false
    (((pyUnescape s).data.map fun c => if c == Char.ofNat 160 then SP else c)))⟩

/-- The multi-script letter class of the is_likely_human_text regex:
Latin (plain and accented), Latin Extended-A, Cyrillic, Hebrew, Arabic,
Devanagari, Thai, CJK ideographs, Hiragana, Hangul, by code point ranges. -/
def humanLetter (c : Char) : Bool :=
  let n := c.toNat
  (65 ≤ n && n ≤ 90) || (97 ≤ n && n ≤ 122) || (192 ≤ n && n ≤ 214) ||
  (216 ≤ n && n ≤ 246) || (248 ≤ n && n ≤ 255) || (256 ≤ n && n ≤ 382) ||
  (1024 ≤ n && n ≤ 1119) || (1488 ≤ n && n ≤ 1514) || (1536 ≤ n && n ≤ 1791) ||
  (2304 ≤ n && n ≤ 2431) || (3585 ≤ n && n ≤ 3675) || (19968 ≤ n && n ≤ 40869) ||
  (12353 ≤ n && n ≤ 12447) || (44032 ≤ n && n ≤ 55203)

/-- is_likely_human_text from the source: nonempty and containing at least
one letter of the multi-script class. -/
def is_likely_human_text (s : String) : Bool :=
  if s == "" then false else s.data.any humanLetter

/-- Modelled from the spec: the Unicode word-character class of the
regular-expression engine (letters, digits, underscore), restricted to the
scripts this development needs. -/
def pyWordChar (c : Char) : Bool :=
  c.isAlphanum || c == Char.ofNat 95 || humanLetter c

/-- Characters of the GUID heuristic class: hex digits and hyphen. -/
def hexHyphen (c : Char) : Bool :=
  c.isDigit || (65 ≤ c.toNat && c.toNat ≤ 70) || (97 ≤ c.toNat && c.toNat ≤ 102) ||
  c == Char.ofNat 45

/-- should_skip_text from the source: empty or a lone hyphen, or entirely
non-word characters / underscores, or an 8-plus character hex/hyphen run. -/
def should_skip_text (s : String) : Bool :=
  if s == "" || s == "-" then true
  else if s.data.all (fun c => !pyWordChar c || c == Char.ofNat 95) then true
  else if 8 ≤ s.data.length && s.data.all hexHyphen then true
  else false

/-- The CJK/Kana/Hangul class of word_count (code points 4E00-9FFF,
3040-30FF, AC00-D7AF). -/
def isCjkChar (c : Char) : Bool :=
  let n := c.toNat
  (19968 ≤ n && n ≤ 40959) || (12352 ≤ n && n ≤ 12543) || (44032 ≤ n && n ≤ 55215)

/-- The token class of the word regex of word_count: ASCII letters and
digits, accented Latin, and the apostrophe. -/
def wcWordChar (c : Char) : Bool :=
  let n := c.toNat
  (65 ≤ n && n ≤ 90) || (97 ≤ n && n ≤ 122) || (48 ≤ n && n ≤ 57) ||
  (192 ≤ n && n ≤ 214) || (216 ≤ n && n ≤ 246) || (248 ≤ n && n ≤ 255) || n == 39

/-- Number of maximal runs of true values (re.findall on a one-class
regex counts maximal matching runs). -/
def countRuns : Bool → List Bool → Nat
  | _, [] => 0
  | prev, b :: bs => (if b && !prev then 1 else 0) + countRuns b bs

/-- word_count from the source: CJK-class code points count one word each;
the rest of the text is tokenized by the word regex after CJK code points
are replaced by spaces. -/
def word_count (s : String) : Nat :=
  if s == "" then 0
  else
    let no_cjk := s.data.map fun c => if isCjkChar c then SP else c
    countRuns false (no_cjk.map wcWordChar) + s.data.countP (fun c => isCjkChar c)

/-- A record emitted by the walkers: (unit id, location path, text). -/
abbrev Row := String × String × String

/-- The TRANSLATABLE_ATTRS set of the source, verbatim. -/
def TRANSLATABLE_ATTRS : List String :=
  ["alt", "title", "label", "aria-label", "aria_title", "tooltip", "placeholder",
   "value", "caption", "text", "content", "name", "displayName"]

/-- The NOISE_ATTRS set of the source, verbatim. -/
def NOISE_ATTRS : List String :=
  ["id", "uid", "guid", "rid", "x", "y", "w", "h", "left", "top", "width", "height",
   "style", "class", "ctype", "type", "lang", "language", "src", "href", "fill", "stroke",
   "font", "fontSize", "color", "alignment", "bold", "italic", "underline"]

/-- The LIKELY_TEXT_TAGS set of the source, verbatim. -/
def LIKELY_TEXT_TAGS : List String :=
  ["text", "p", "span", "div", "tspan", "title", "desc", "caption", "para", "run",
   "li", "h1", "h2", "h3", "h4", "h5", "h6", "td", "th", "label", "value", "name", "g"]

/-- The SKIP_TAGS set of the source, verbatim. -/
def SKIP_TAGS : List String :=
  ["style", "script", "defs", "metadata", "font", "image", "img", "svg", "use", "clipPath"]

/-- Characters after the first closing brace, or none when there is no
closing brace in the list. -/
def dropNsAux : List Char → Option (List Char)
  | [] => none
  | c :: cs => if c == Char.ofNat 125 then some cs else dropNsAux cs

/-- Namespace stripping as done per tag and per attribute name in the
source: when the name contains a closing brace, keep only the part after
the first one. -/
def stripNs (s : String) : String :=
  match dropNsAux s.data with
  | some rest => ⟨rest⟩
  | none => s

/-- Python dict insertion: a fresh key is appended; an existing key keeps
its position but receives the new value. -/
def dictInsert (acc : List (String × String)) (k v : String) : List (String × String) :=
  if acc.any (fun p => p.1 == k) then acc.map (fun p => if p.1 == k then (k, v) else p)
  else acc ++ [(k, v)]

/-- The attribute dict comprehension of walk_xml_collect: strip namespaces
from the attribute names, with Python dict semantics on collisions. -/
def stripAttrKeys (attrs : List (String × String)) : List (String × String) :=
  attrs.foldl (fun acc kv => dictInsert acc (stripNs kv.1) kv.2) []

/-- An ElementTree element as exposed by the external markup parser: tag,
ordered attributes, direct text, tail text, ordered children. -/
inductive XmlTree where
  | mk (tag : String) (attrs : List (String × String)) (text : Option String)
       (tail : Option String) (children : List XmlTree)

def XmlTree.tag : XmlTree → String
  | .mk t _ _ _ _ => t

def XmlTree.attrs : XmlTree → List (String × String)
  | .mk _ a _ _ _ => a

def XmlTree.text : XmlTree → Option String
  | .mk _ _ t _ _ => t

def XmlTree.tail : XmlTree → Option String
  | .mk _ _ _ t _ => t

def XmlTree.children : XmlTree → List XmlTree
  | .mk _ _ _ _ c => c

/-- The location path of a text node, attribute or tail under the given
ancestor path. -/
def joinPath (path : List String) : String :=
  "/" ++ String.intercalate "/" path

/-- The direct-text record of one element, if any: the normalized text
must be nonempty, the tag likely-text-bearing or the content human text,
and the content not skippable. -/
def textRow (fid : String) (path : List String) (tag : String) (txt : String) : List Row :=
  if txt ≠ "" ∧ (LIKELY_TEXT_TAGS.contains tag ∨ is_likely_human_text txt = true) ∧
     should_skip_text txt = false
  then [(fid, joinPath (path ++ [tag, "#text"]), txt)] else []

/-- The attribute records of one element, in attribute order: noise
attribute names are skipped; otherwise the normalized value is kept when
the name is translatable or the value is human text, and the value is not
skippable. -/
def attrRowsOf (fid : String) (path : List String) (tag : String) :
    List (String × String) → List Row
  | [] => []
  | kv :: rest =>
    if NOISE_ATTRS.contains kv.1 then attrRowsOf fid path tag rest
    else
      if (TRANSLATABLE_ATTRS.contains kv.1 ∨
            is_likely_human_text (normalize_text kv.2) = true) ∧
         should_skip_text (normalize_text kv.2) = false
      then (fid, joinPath (path ++ [tag, "@" ++ kv.1]), normalize_text kv.2) ::
        attrRowsOf fid path tag rest
      else attrRowsOf fid path tag rest

/-- The tail record of one element, if any: same test as for text but
without the tag-set exception. -/
def tailRow (fid : String) (path : List String) (tag : String) (tl : String) : List Row :=
  if tl ≠ "" ∧ is_likely_human_text tl = true ∧ should_skip_text tl = false
  then [(fid, joinPath (path ++ [tag, "#tail"]), tl)] else []

/-- The rows the walker emits for one element apart from its children, in
source order: direct text, attributes, tail.  The include-alt-text flag is
threaded exactly as in the source, where the AltText scan over attribute
values only breaks out of its loop and changes no state, so it suppresses
nothing; the flag therefore influences no record. -/
def elemRows (fid : String) (path : List String) (tag : String)
    (attrs : List (String × String)) (text tail : Option String) : List Row :=
  textRow fid path tag (normalize_text (text.getD "")) ++
  attrRowsOf fid path tag attrs ++
  tailRow fid path tag (normalize_text (tail.getD ""))

mutual

/-- walk_xml_collect restricted to one element: the source walks an
explicit stack, pushing children in reverse, which visits the tree in
document order; this recursion produces the same record list in the same
order.  Elements whose stripped tag is in SKIP_TAGS contribute nothing and
their subtree is never visited. -/
def walkElem (fid : String) (inc : Bool) (path : List String) : XmlTree → List Row
  | .mk tag0 attrs0 text0 tail0 children =>
    let tag := stripNs tag0
    if SKIP_TAGS.contains tag then []
    else
      elemRows fid path tag (stripAttrKeys attrs0) text0 tail0 ++
        walkForest fid inc (path ++ [tag]) children

/-- The walker over a list of sibling elements, in document order. -/
def walkForest (fid : String) (inc : Bool) (path : List String) : List XmlTree → List Row
  | [] => []
  | c :: cs => walkElem fid inc path c ++ walkForest fid inc path cs

end

/-- walk_xml_collect from the source: start at the root with an empty
ancestor path. -/
def walk_xml_collect (root : XmlTree) (fid : String) (inc : Bool) : List Row :=
  walkElem fid inc [] root

example : walk_xml_collect
    (XmlTree.mk "text" [] (some "Ж") none []) "f.xml" true
    = [("f.xml", "/text/#text", "Ж")] := by decide

example : walk_xml_collect
    (XmlTree.mk "p" [("alt", "See .AltText 1")] none none []) "f" false
    = [("f", "/p/@alt", "See .AltText 1")] := by decide

example : walk_xml_collect
    (XmlTree.mk "script" [("alt", "Hello world")] (some "Hello") (some "world") []) "f" true
    = [] := by decide

/-- ASCII lowercasing of one character. -/
def lowerChar (c : Char) : Char :=
  if 65 ≤ c.toNat && c.toNat ≤ 90 then Char.ofNat (c.toNat + 32) else c

/-- Lowercasing as used for the sort keys, the entry names and the JSON
key test.  Python str.lower also lowercases non-ASCII letters; this model
covers ASCII. -/
def pyLower (s : String) : String := ⟨s.data.map lowerChar⟩

/-- Code-point lexicographic comparison of character lists, the order
Python uses on strings. -/
def charListLt : List Char → List Char → Bool
  | [], [] => false
  | [], _ :: _ => true
  | _ :: _, [] => false
  | a :: as, b :: bs =>
    a.toNat < b.toNat || (a.toNat == b.toNat && charListLt as bs)

/-- Python string less-than. -/
def strLt (a b : String) : Bool := charListLt a.data b.data

/-- Python str.endswith. -/
def strEndsWith (s e : String) : Bool := e.data.isSuffixOf s.data

mutual

/-- A decoded JSON value as returned by the external json decoder.  The
reference implementation treats Python bool values as numbers (bool is an
int subtype), so they produce records; floats are outside this model. -/
inductive PyJson where
  | obj (kvs : List PyField)
  | arr (xs : List PyJson)
  | str (s : String)
  | int (n : Int)
  | bool (b : Bool)
  | null

/-- One key/value pair of a JSON mapping, in insertion order. -/
inductive PyField where
  | mk (key : String) (val : PyJson)

end

/-- Python str() on the scalar constructors. -/
def pyStr : PyJson → String
  | .str s => s
  | .int n => toString n
  | .bool true => "True"
  | .bool false => "False"
  | .obj _ => ""
  | .arr _ => ""
  | .null => ""

mutual

/-- extract_from_json from the source.  A mapping yields one candidate
record per scalar value under path dollar-dot-key; nested mappings and
sequences are entered by a recursive call that passes no path, so the
ancestor keys never reach the emitted path.  Sequences are traversed
element by element; scalars at the top level yield nothing. -/
def extract_from_json (doc : PyJson) (fid : String) : List Row :=
  match doc with
  | .obj kvs => jsonPairs kvs fid
  | .arr xs => jsonArr xs fid
  | _ => []

/-- The key/value loop of the mapping branch. -/
def jsonPairs (kvs : List PyField) (fid : String) : List Row :=
  match kvs with
  | [] => []
  | .mk k v :: rest =>
    (match v with
     | .obj kvs2 => jsonPairs kvs2 fid
     | .arr xs => jsonArr xs fid
     | .null => []
     | _ =>
       let val := normalize_text (pyStr v)
       if val ≠ "" ∧ is_likely_human_text val = true ∧ should_skip_text val = false ∧
          NOISE_ATTRS.contains (pyLower k) = false
       then [(fid, "$." ++ k, val)] else []) ++ jsonPairs rest fid

/-- The element loop of the sequence branch. -/
def jsonArr (xs : List PyJson) (fid : String) : List Row :=
  match xs with
  | [] => []
  | x :: rest => extract_from_json x fid ++ jsonArr rest fid

end

example : extract_from_json
    (PyJson.obj [PyField.mk "a" (PyJson.obj [PyField.mk "b" (PyJson.str "Hello")])]) "f"
    = [("f", "$.b", "Hello")] := by decide

/-- One step of the dedup loop: a triple already seen is dropped, a fresh
one is appended; the seen set is exactly the set of rows already kept. -/
def dedupStep (out : List Row) (r : Row) : List Row :=
  if r ∈ out then out else out ++ [r]

/-- The dedup pass of extract_rows_from_story: first occurrence of each
(unit id, path, text) triple wins. -/
def dedupRows (rows : List Row) : List Row :=
  rows.foldl dedupStep []

/-- The two-part sort key: unit id lowercased, then path lowercased. -/
def rowKey (r : Row) : String × String := (pyLower r.1, pyLower r.2.1)

/-- Strict lexicographic comparison of sort keys. -/
def keyLt (a b : Row) : Bool :=
  strLt (rowKey a).1 (rowKey b).1 ||
  ((rowKey a).1 == (rowKey b).1 && strLt (rowKey a).2 (rowKey b).2)

/-- Non-strict lexicographic comparison of sort keys. -/
def keyLe (a b : Row) : Bool := keyLt a b || decide (rowKey a = rowKey b)

/-- Stable insertion of a row before the first strictly greater element;
together with sortRows this is the unique stable sort by rowKey, hence
the same function as the sort of the source. -/
def insertRow (r : Row) : List Row → List Row
  | [] => [r]
  | x :: xs => if keyLt x r then x :: insertRow r xs else r :: x :: xs

/-- The list sort of the dedup pass output: stable, ascending by rowKey. -/
def sortRows (l : List Row) : List Row := l.foldr insertRow []

example : sortRows [("B.xml", "p", "t1"), ("a.xml", "q", "t2"), ("a.xml", "P", "t3")]
    = [("a.xml", "P", "t3"), ("a.xml", "q", "t2"), ("B.xml", "p", "t1")] := by decide
example : dedupRows [("a", "p", "t"), ("b", "p", "t"), ("a", "p", "t")]
    = [("a", "p", "t"), ("b", "p", "t")] := by decide

/-- The cleaning pass of the parse fallback: the source regex deletes the
bytes matching the complement of tab, LF, CR and 0x20-0xFF, so bytes
0x20 through 0xFF survive, including every non-ASCII byte. -/
def clean_bytes (data : List Nat) : List Nat :=
  data.filter (fun b => b == 9 || b == 10 || b == 13 || (32 ≤ b && b ≤ 255))

/-- Modelled from the spec: the cleaning the specification describes,
keeping only printable ASCII (0x20-0x7E) plus tab, CR and LF. -/
def spec_ascii_clean (data : List Nat) : List Nat :=
  data.filter (fun b => b == 9 || b == 10 || b == 13 || (32 ≤ b && b ≤ 126))

/-- parse_xml_bytes from the source, with the external ElementTree parser
as the oracle et: try the raw bytes, on failure retry once on the cleaned
bytes, on a second failure report no data. -/
def parse_xml_bytes (et : List Nat → Option XmlTree) (data : List Nat) : Option XmlTree :=
  match et data with
  | some root => some root
  | none =>
    match et (clean_bytes data) with
    | some root => some root
    | none => none

/-- A container entry as exposed by the external zip reader: name, the
directory flag, and the bytes (none when reading the entry raises). -/
structure ZipEntry where
  filename : String
  isDir : Bool
  content : Option (List Nat)

/-- The media tally of extract_rows_from_story. -/
structure MediaCounts where
  images : Nat
  audio : Nat
  video : Nat
  other : Nat
deriving DecidableEq

def isImageName (nl : String) : Bool :=
  [".png", ".jpg", ".jpeg", ".gif", ".svg", ".webp"].any (fun e => strEndsWith nl e)

def isAudioName (nl : String) : Bool :=
  [".mp3", ".wav", ".m4a", ".ogg"].any (fun e => strEndsWith nl e)

def isVideoName (nl : String) : Bool :=
  [".mp4", ".webm", ".mov", ".m4v"].any (fun e => strEndsWith nl e)

def isTextName (nl : String) : Bool :=
  [".xml", ".htm", ".html", ".json"].any (fun e => strEndsWith nl e)

/-- The media branch of the entry loop, one entry. -/
def mediaStep (m : MediaCounts) (e : ZipEntry) : MediaCounts :=
  let nl := pyLower e.filename
  if isImageName nl then MediaCounts.mk (m.images + 1) m.audio m.video m.other
  else if isAudioName nl then MediaCounts.mk m.images (m.audio + 1) m.video m.other
  else if isVideoName nl then MediaCounts.mk m.images m.audio (m.video + 1) m.other
  else if !e.isDir && !isTextName nl then MediaCounts.mk m.images m.audio m.video (m.other + 1)
  else m

/-- The rows contributed by one entry: text-bearing names only; a failed
read, a failed json decode, or a doubly failed markup parse contribute
nothing.  The include-alt-text argument of the walker is the negation of
the skip flag, as in the source. -/
def entryRows (et : List Nat → Option XmlTree) (jl : List Nat → Option PyJson)
    (skip_alttext : Bool) (e : ZipEntry) : List Row :=
  let nl := pyLower e.filename
  if isTextName nl && !e.isDir then
    match e.content with
    | none => []
    | some data =>
      if strEndsWith nl ".json" then
        match jl data with
        | some doc => extract_from_json doc e.filename
        | none => []
      else
        match parse_xml_bytes et data with
        | some root => walk_xml_collect root e.filename (!skip_alttext)
        | none => []
  else []

/-- One step of the entry loop of extract_rows_from_story: append the
rows of the entry and update the media tally. -/
def scanStep (et : List Nat → Option XmlTree) (jl : List Nat → Option PyJson)
    (skip_alttext : Bool) (acc : List Row × MediaCounts) (e : ZipEntry) :
    List Row × MediaCounts :=
  (acc.1 ++ entryRows et jl skip_alttext e, mediaStep acc.2 e)

/-- extract_rows_from_story from the source, over the external container
reader (the entry list), markup parser oracle et and json decoder oracle
jl: tally media and accumulate candidate rows entry by entry, then
deduplicate and sort. -/
def extract_rows_from_story (et : List Nat → Option XmlTree)
    (jl : List Nat → Option PyJson) (entries : List ZipEntry)
    (skip_alttext : Bool) : List Row × MediaCounts :=
  (sortRows (dedupRows
      (entries.foldl (scanStep et jl skip_alttext) ([], MediaCounts.mk 0 0 0 0)).1),
   (entries.foldl (scanStep et jl skip_alttext) ([], MediaCounts.mk 0 0 0 0)).2)

example : (extract_rows_from_story
    (fun d => if d == [1] then some (XmlTree.mk "text" [] (some "Ж") none []) else none)
    (fun _ => none)
    [ZipEntry.mk "f.xml" false (some [1])] true).1
    = [("f.xml", "/text/#text", "Ж")] := by decide

example : (extract_rows_from_story (fun _ => none) (fun _ => none)
    [ZipEntry.mk "a.xml" false (some [0])] true).2 = MediaCounts.mk 0 0 0 0 := by decide

/-- The contextual hints of one translation unit, as exposed by the
structured document: per note child the concatenated descendant text, per
context node the concatenated descendant text with the attribute values on
that node, and the five identifying attributes of the unit. -/
structure TransUnit where
  noteTexts : List String
  contextNodes : List (String × List String)
  attrId : Option String
  attrResname : Option String
  attrResId : Option String
  attrExtradata : Option String
  attrPart : Option String
deriving DecidableEq

/-- get_text_recursive from the splitter: the concatenated descendant
text, stripped. -/
def get_text_recursive (s : String) : String := ⟨pyStrip s.data⟩

/-- contexts_for_tu from the splitter: notes first, then context texts
and context attribute values, then the identifying attributes in their
fixed order; all entries stripped, empties discarded. -/
def contexts_for_tu (tu : TransUnit) : List String :=
  let noteT := tu.noteTexts.foldr (fun t acc =>
    let t2 := get_text_recursive t
    if t2 ≠ "" then t2 :: acc else acc) []
  let ctxT := tu.contextNodes.foldr (fun c acc =>
    let t2 := get_text_recursive c.1
    (if t2 ≠ "" then [t2] else []) ++ c.2.filter (fun v => v ≠ "") ++ acc) []
  let attrT := [tu.attrId, tu.attrResname, tu.attrResId, tu.attrExtradata,
                tu.attrPart].foldr (fun v acc =>
    match v with
    | some s => if s ≠ "" then s :: acc else acc
    | none => acc) []
  ((noteT ++ ctxT ++ attrT).map (fun s => (⟨pyStrip s.data⟩ : String))).filter
    (fun t => t ≠ "")

/-- matches_any from the splitter, with compiled patterns modelled as
search predicates (the regex engine is external): true when some hint
matches some pattern. -/
def matches_any (texts : List String) (patterns : List (String → Bool)) : Bool :=
  texts.any (fun t => patterns.any (fun p => p t))

/-- One step of the unit routing loop of filter_xliff: notes first (the
unit goes to the notes-only shell even when it also matches alt), then
alt (the unit is dropped), else main. -/
def routeStep (notes_patterns alt_patterns : List (String → Bool))
    (acc : List TransUnit × List TransUnit) (tu : TransUnit) :
    List TransUnit × List TransUnit :=
  let texts := contexts_for_tu tu
  if matches_any texts notes_patterns then (acc.1 ++ [tu], acc.2)
  else if matches_any texts alt_patterns then acc
  else (acc.1, acc.2 ++ [tu])

/-- filter_xliff from the splitter, restricted to the unit routing: the
two output shells are represented by the lists of units appended to them,
in input order. -/
def filter_xliff (units : List TransUnit)
    (notes_patterns alt_patterns : List (String → Bool)) :
    List TransUnit × List TransUnit :=
  units.foldl (routeStep notes_patterns alt_patterns) ([], [])

example : normalize_text "  Click Here!!  " = "Click Here!!" := by decide
example : is_likely_human_text "Click Here!!" = true := by decide
example : word_count "Click Here!!" = 2 := by decide
example : should_skip_text "3F9A-21BC-0001-ABCD" = true := by decide
example : word_count "Ж" = 0 := by decide
example : is_likely_human_text "Ж" = true := by decide
example : should_skip_text "Ж" = false := by decide
example : normalize_text "&amp;amp;" = "&amp;" := by decide
example : normalize_text "&amp;" = "&" := by decide

/-! ### Order facts for the sort keys -/

theorem charListLt_irrefl : ∀ l : List Char, charListLt l l = false
  | [] => rfl
  | c :: cs => by simp [charListLt, charListLt_irrefl cs]

theorem charListLt_trans : ∀ a b c : List Char,
    charListLt a b = true → charListLt b c = true → charListLt a c = true := by
  intro a
  induction a with
  | nil =>
    intro b c hab hbc
    cases b with
    | nil => simp [charListLt] at hab
    | cons y ys =>
      cases c with
      | nil => simp [charListLt] at hbc
      | cons z zs => simp [charListLt]
  | cons x xs ih =>
    intro b c hab hbc
    cases b with
    | nil => simp [charListLt] at hab
    | cons y ys =>
      cases c with
      | nil => simp [charListLt] at hbc
      | cons z zs =>
        simp only [charListLt, Bool.or_eq_true, Bool.and_eq_true, decide_eq_true_eq,
          beq_iff_eq] at hab hbc ⊢
        rcases hab with h1 | ⟨h1, h2⟩ <;> rcases hbc with g1 | ⟨g1, g2⟩
        · exact Or.inl (h1.trans g1)
        · exact Or.inl (g1 ▸ h1)
        · exact Or.inl (h1 ▸ g1)
        · exact Or.inr ⟨h1.trans g1, ih ys zs h2 g2⟩

theorem char_eq_of_toNat_eq {a b : Char} (h : a.toNat = b.toNat) : a = b :=
  Char.ext (UInt32.toNat.inj h)

theorem charListLt_total : ∀ a b : List Char,
    charListLt a b = true ∨ charListLt b a = true ∨ a = b := by
  intro a
  induction a with
  | nil =>
    intro b
    cases b with
    | nil => exact Or.inr (Or.inr rfl)
    | cons y ys => exact Or.inl (by simp [charListLt])
  | cons x xs ih =>
    intro b
    cases b with
    | nil => exact Or.inr (Or.inl (by simp [charListLt]))
    | cons y ys =>
      rcases Nat.lt_trichotomy x.toNat y.toNat with h | h | h
      · exact Or.inl (by simp [charListLt, h])
      · rcases ih ys with g | g | g
        · exact Or.inl (by simp [charListLt, h, g])
        · exact Or.inr (Or.inl (by simp [charListLt, h.symm, g]))
        · exact Or.inr (Or.inr (by rw [char_eq_of_toNat_eq h, g]))
      · exact Or.inr (Or.inl (by simp [charListLt, h]))

theorem string_data_inj : ∀ {a b : String}, a.data = b.data → a = b := by
  intro a b h
  exact congrArg String.mk h

theorem strLt_irrefl (s : String) : strLt s s = false := charListLt_irrefl s.data

theorem strLt_trans {a b c : String} (h1 : strLt a b = true) (h2 : strLt b c = true) :
    strLt a c = true := charListLt_trans a.data b.data c.data h1 h2

theorem strLt_total (a b : String) : strLt a b = true ∨ strLt b a = true ∨ a = b := by
  rcases charListLt_total a.data b.data with h | h | h
  · exact Or.inl h
  · exact Or.inr (Or.inl h)
  · exact Or.inr (Or.inr (string_data_inj h))

theorem keyLt_eq_false_of_eq {a b : Row} (h : rowKey a = rowKey b) : keyLt a b = false := by
  simp [keyLt, h, strLt_irrefl]

theorem keyLt_irrefl (a : Row) : keyLt a a = false := keyLt_eq_false_of_eq rfl

theorem keyLt_trans {a b c : Row} (h1 : keyLt a b = true) (h2 : keyLt b c = true) :
    keyLt a c = true := by
  simp only [keyLt, Bool.or_eq_true, Bool.and_eq_true, beq_iff_eq] at h1 h2 ⊢
  rcases h1 with h1 | ⟨h1, h1b⟩ <;> rcases h2 with h2 | ⟨h2, h2b⟩
  · exact Or.inl (strLt_trans h1 h2)
  · exact Or.inl (h2 ▸ h1)
  · exact Or.inl (h1 ▸ h2)
  · exact Or.inr ⟨h1.trans h2, strLt_trans h1b h2b⟩

theorem rowKey_eq_of_not_lt {a b : Row} (h1 : keyLt a b = false) (h2 : keyLt b a = false) :
    rowKey a = rowKey b := by
  simp only [keyLt, Bool.or_eq_false_iff, Bool.and_eq_false_iff,
    beq_eq_false_iff_ne, ne_eq] at h1 h2
  obtain ⟨h1a, h1b⟩ := h1
  obtain ⟨h2a, h2b⟩ := h2
  have hfst : (rowKey a).1 = (rowKey b).1 := by
    rcases strLt_total (rowKey a).1 (rowKey b).1 with h | h | h
    · exact absurd h (by simp [h1a])
    · exact absurd h (by simp [h2a])
    · exact h
  have hsnd : (rowKey a).2 = (rowKey b).2 := by
    rcases strLt_total (rowKey a).2 (rowKey b).2 with h | h | h
    · rcases h1b with h1b | h1b
      · exact absurd hfst h1b
      · exact absurd h (by simp [h1b])
    · rcases h2b with h2b | h2b
      · exact absurd hfst.symm h2b
      · exact absurd h (by simp [h2b])
    · exact h
  exact Prod.ext hfst hsnd

theorem keyLe_of_not_lt {a b : Row} (h : keyLt a b = false) : keyLe b a = true := by
  cases hr : keyLt b a with
  | true => simp [keyLe, hr]
  | false => simp [keyLe, rowKey_eq_of_not_lt hr h]

theorem keyLe_of_lt {a b : Row} (h : keyLt a b = true) : keyLe a b = true := by
  simp [keyLe, h]

theorem keyLt_eq_false_of_le {a b : Row} (h : keyLe a b = true) : keyLt b a = false := by
  simp only [keyLe, Bool.or_eq_true, decide_eq_true_eq] at h
  rcases h with h | h
  · cases hr : keyLt b a with
    | false => rfl
    | true => exact absurd (keyLt_trans h hr) (by simp [keyLt_irrefl])
  · exact keyLt_eq_false_of_eq h.symm

theorem keyLe_trans {a b c : Row} (h1 : keyLe a b = true) (h2 : keyLe b c = true) :
    keyLe a c = true := by
  simp only [keyLe, Bool.or_eq_true, decide_eq_true_eq] at h1 h2 ⊢
  rcases h1 with h1 | h1 <;> rcases h2 with h2 | h2
  · exact Or.inl (keyLt_trans h1 h2)
  · exact Or.inl (by simpa [keyLt, h2] using h1)
  · exact Or.inl (by simpa [keyLt, h1] using h2)
  · exact Or.inr (h1.trans h2)

/-! ### The insertion sort is sorted, a permutation, and stable -/

theorem insertRow_perm (r : Row) : ∀ l : List Row, (insertRow r l).Perm (r :: l) := by
  intro l
  induction l with
  | nil => exact List.Perm.refl _
  | cons x xs ih =>
    simp only [insertRow]
    split
    · exact (ih.cons x).trans (List.Perm.swap r x xs)
    · exact List.Perm.refl _

theorem sortRows_perm : ∀ l : List Row, (sortRows l).Perm l := by
  intro l
  induction l with
  | nil => exact List.Perm.refl _
  | cons x xs ih => exact (insertRow_perm x (sortRows xs)).trans (ih.cons x)

theorem pairwise_insertRow {l : List Row} (r : Row)
    (h : l.Pairwise (fun a b => keyLe a b = true)) :
    (insertRow r l).Pairwise (fun a b => keyLe a b = true) := by
  induction l with
  | nil => simp [insertRow]
  | cons x xs ih =>
    simp only [insertRow]
    split
    · rename_i hlt
      rw [List.pairwise_cons] at h
      refine List.pairwise_cons.2 ⟨?_, ih h.2⟩
      intro y hy
      have hy2 := (insertRow_perm r xs).mem_iff.1 hy
      rcases List.mem_cons.1 hy2 with hy2 | hy2
      · exact hy2 ▸ keyLe_of_lt hlt
      · exact h.1 y hy2
    · rename_i hlt
      rw [List.pairwise_cons] at h
      refine List.pairwise_cons.2 ⟨?_, List.pairwise_cons.2 h⟩
      intro y hy
      rcases List.mem_cons.1 hy with hy | hy
      · exact hy ▸ keyLe_of_not_lt (by simpa using hlt)
      · exact keyLe_trans (keyLe_of_not_lt (by simpa using hlt)) (h.1 y hy)

theorem sortRows_sorted : ∀ l : List Row, (sortRows l).Pairwise (fun a b => keyLe a b = true) := by
  intro l
  induction l with
  | nil => simp [sortRows]
  | cons x xs ih => exact pairwise_insertRow x ih

theorem filter_insertRow (k : String × String) (r : Row) (l : List Row) :
    (insertRow r l).filter (fun x => decide (rowKey x = k)) =
      if rowKey r = k then r :: l.filter (fun x => decide (rowKey x = k))
      else l.filter (fun x => decide (rowKey x = k)) := by
  induction l with
  | nil =>
    by_cases hr : rowKey r = k <;> simp [insertRow, List.filter_cons, hr]
  | cons x xs ih =>
    simp only [insertRow]
    split
    · rename_i hlt
      by_cases hr : rowKey r = k
      · have hx : ¬(rowKey x = k) := by
          intro hx
          have : rowKey x = rowKey r := by rw [hx, hr]
          exact absurd hlt (by simp [keyLt_eq_false_of_eq this])
        simp [List.filter_cons, hx, hr, ih]
      · simp [List.filter_cons, hr, ih]
    · by_cases hr : rowKey r = k <;> simp [List.filter_cons, hr]

theorem filter_sortRows (k : String × String) : ∀ l : List Row,
    (sortRows l).filter (fun x => decide (rowKey x = k)) =
      l.filter (fun x => decide (rowKey x = k)) := by
  intro l
  induction l with
  | nil => rfl
  | cons x xs ih =>
    show (insertRow x (sortRows xs)).filter _ = _
    rw [filter_insertRow k x (sortRows xs)]
    by_cases hx : rowKey x = k <;> simp [List.filter_cons, hx, ih]

theorem insertRow_of_le {xs : List Row} (r : Row)
    (h : ∀ y ∈ xs, keyLe r y = true) : insertRow r xs = r :: xs := by
  cases xs with
  | nil => rfl
  | cons y ys =>
    simp only [insertRow]
    have : keyLt y r = false := keyLt_eq_false_of_le (h y (by simp))
    simp [this]

theorem sortRows_of_sorted : ∀ {l : List Row},
    l.Pairwise (fun a b => keyLe a b = true) → sortRows l = l := by
  intro l
  induction l with
  | nil => intro _; rfl
  | cons x xs ih =>
    intro h
    rw [List.pairwise_cons] at h
    show insertRow x (sortRows xs) = x :: xs
    rw [ih h.2]
    exact insertRow_of_le x h.1

/-! ### The dedup pass -/

theorem mem_foldl_dedupStep : ∀ (rows : List Row) (out : List Row) (x : Row),
    x ∈ rows.foldl dedupStep out ↔ x ∈ out ∨ x ∈ rows := by
  intro rows
  induction rows with
  | nil => simp
  | cons r rest ih =>
    intro out x
    show x ∈ rest.foldl dedupStep (dedupStep out r) ↔ _
    rw [ih]
    unfold dedupStep
    split
    · rename_i hr
      constructor
      · rintro (h | h)
        · exact Or.inl h
        · exact Or.inr (List.mem_cons_of_mem r h)
      · rintro (h | h)
        · exact Or.inl h
        · rcases List.mem_cons.1 h with h | h
          · exact Or.inl (h ▸ hr)
          · exact Or.inr h
    · simp only [List.mem_append, List.mem_singleton, List.mem_cons]
      tauto

theorem mem_dedupRows {x : Row} {rows : List Row} : x ∈ dedupRows rows ↔ x ∈ rows := by
  unfold dedupRows
  rw [mem_foldl_dedupStep]
  simp

theorem nodup_foldl_dedupStep : ∀ (rows : List Row) (out : List Row),
    out.Nodup → (rows.foldl dedupStep out).Nodup := by
  intro rows
  induction rows with
  | nil => intro out h; exact h
  | cons r rest ih =>
    intro out h
    show (rest.foldl dedupStep (dedupStep out r)).Nodup
    apply ih
    unfold dedupStep
    split
    · exact h
    · rename_i hr
      simpa [List.nodup_append] using ⟨h, hr⟩

theorem dedupRows_nodup (rows : List Row) : (dedupRows rows).Nodup :=
  nodup_foldl_dedupStep rows [] List.nodup_nil

theorem dedupStep_def (out : List Row) (r : Row) :
    dedupStep out r = if r ∈ out then out else out ++ [r] := rfl

theorem dedupRows_append_single (xs : List Row) (r : Row) :
    dedupRows (xs ++ [r]) = if r ∈ xs then dedupRows xs else dedupRows xs ++ [r] := by
  have hmem : (r ∈ xs.foldl dedupStep []) ↔ r ∈ xs := by
    rw [mem_foldl_dedupStep]
    simp
  unfold dedupRows
  rw [List.foldl_append]
  show dedupStep (xs.foldl dedupStep []) r = _
  rw [dedupStep_def]
  by_cases h : r ∈ xs
  · rw [if_pos (hmem.2 h), if_pos h]
  · rw [if_neg (fun hh => h (hmem.1 hh)), if_neg h]

theorem foldl_dedupStep_of_nodup : ∀ (l out : List Row),
    out.Nodup → l.Nodup → (∀ x ∈ l, x ∉ out) → l.foldl dedupStep out = out ++ l := by
  intro l
  induction l with
  | nil => intro out _ _ _; simp
  | cons r rest ih =>
    intro out hout hl hdisj
    show rest.foldl dedupStep (dedupStep out r) = out ++ r :: rest
    have hr : r ∉ out := hdisj r (by simp)
    rw [dedupStep_def, if_neg hr]
    rw [List.nodup_cons] at hl
    rw [ih (out ++ [r]) (by simpa [List.nodup_append] using ⟨hout, hr⟩) hl.2 ?_]
    · simp
    · intro x hx
      simp only [List.mem_append, List.mem_singleton]
      rintro (h | h)
      · exact hdisj x (List.mem_cons_of_mem r hx) h
      · exact hl.1 (h ▸ hx)

theorem dedupRows_of_nodup {l : List Row} (h : l.Nodup) : dedupRows l = l := by
  unfold dedupRows
  rw [foldl_dedupStep_of_nodup l [] List.nodup_nil h (by simp)]
  simp

/-- C4.  The deduplicator drops a candidate exactly when the same triple
was already kept (first occurrence wins), and the result is then sorted
ascending by (lowercased unit id, lowercased path), stably: rows with
equal keys keep the relative order the dedup pass gave them. -/
theorem C4_dedup_sort_stable :
    (dedupRows [] = [] ∧
      ∀ (xs : List Row) (r : Row),
        dedupRows (xs ++ [r]) =
          if r ∈ xs then dedupRows xs else dedupRows xs ++ [r]) ∧
    ∀ rows : List Row,
      (sortRows (dedupRows rows)).Pairwise (fun a b => keyLe a b = true) ∧
      (sortRows (dedupRows rows)).Perm (dedupRows rows) ∧
      ∀ k : String × String,
        (sortRows (dedupRows rows)).filter (fun x => decide (rowKey x = k)) =
          (dedupRows rows).filter (fun x => decide (rowKey x = k)) := by
  refine ⟨⟨rfl, dedupRows_append_single⟩, ?_⟩
  intro rows
  exact ⟨sortRows_sorted _, sortRows_perm _, fun k => filter_sortRows k _⟩

/-- C8.  Extraction is a pure function of its inputs: equal container
contents and flags give equal row lists and media tallies; moreover the
produced row list is a fixed point of both the dedup pass and the sort,
so running the dedup-and-sort stage again changes nothing. -/
theorem C8_extraction_deterministic :
    ∀ (et : List Nat → Option XmlTree) (jl : List Nat → Option PyJson)
      (entries : List ZipEntry) (flag : Bool),
      extract_rows_from_story et jl entries flag =
        extract_rows_from_story et jl entries flag ∧
      dedupRows (extract_rows_from_story et jl entries flag).1 =
        (extract_rows_from_story et jl entries flag).1 ∧
      sortRows (extract_rows_from_story et jl entries flag).1 =
        (extract_rows_from_story et jl entries flag).1 := by
  intro et jl entries flag
  refine ⟨rfl, ?_, ?_⟩
  · show dedupRows (sortRows (dedupRows _)) = sortRows (dedupRows _)
    apply dedupRows_of_nodup
    exact (sortRows_perm _).nodup_iff.2 (dedupRows_nodup _)
  · show sortRows (sortRows (dedupRows _)) = sortRows (dedupRows _)
    exact sortRows_of_sorted (sortRows_sorted _)

/-! ### The partitioner routes each unit exactly once -/

/-- A unit routed to the notes-only shell. -/
def isNotesUnit (tu : TransUnit) (np : List (String → Bool)) : Bool :=
  matches_any (contexts_for_tu tu) np

/-- A unit routed to the main shell. -/
def isMainUnit (tu : TransUnit) (np ap : List (String → Bool)) : Bool :=
  !matches_any (contexts_for_tu tu) np && !matches_any (contexts_for_tu tu) ap

theorem filter_xliff_foldl (np ap : List (String → Bool)) :
    ∀ (units : List TransUnit) (acc : List TransUnit × List TransUnit),
      units.foldl (routeStep np ap) acc =
      (acc.1 ++ units.filter (fun u => isNotesUnit u np),
       acc.2 ++ units.filter (fun u => isMainUnit u np ap)) := by
  intro units
  induction units with
  | nil => intro acc; cases acc; simp
  | cons u rest ih =>
    intro acc
    cases hn : matches_any (contexts_for_tu u) np with
    | true =>
      rw [List.foldl_cons,
        show routeStep np ap acc u = (acc.1 ++ [u], acc.2) by simp [routeStep, hn], ih]
      simp [isNotesUnit, isMainUnit, hn, List.filter_cons, List.append_assoc]
    | false =>
      cases ha : matches_any (contexts_for_tu u) ap with
      | true =>
        rw [List.foldl_cons,
          show routeStep np ap acc u = acc by simp [routeStep, hn, ha], ih]
        simp [isNotesUnit, isMainUnit, hn, ha, List.filter_cons]
      | false =>
        rw [List.foldl_cons,
          show routeStep np ap acc u = (acc.1, acc.2 ++ [u]) by simp [routeStep, hn, ha], ih]
        simp [isNotesUnit, isMainUnit, hn, ha, List.filter_cons, List.append_assoc]

theorem filter_xliff_eq (units : List TransUnit) (np ap : List (String → Bool)) :
    filter_xliff units np ap =
      (units.filter (fun u => isNotesUnit u np),
       units.filter (fun u => isMainUnit u np ap)) := by
  unfold filter_xliff
  rw [filter_xliff_foldl np ap units ([], [])]
  simp

theorem filter_xliff_fst (units : List TransUnit) (np ap : List (String → Bool)) :
    (filter_xliff units np ap).1 = units.filter (fun u => isNotesUnit u np) := by
  rw [filter_xliff_eq]

theorem filter_xliff_snd (units : List TransUnit) (np ap : List (String → Bool)) :
    (filter_xliff units np ap).2 = units.filter (fun u => isMainUnit u np ap) := by
  rw [filter_xliff_eq]

/-- C3.  Each translation unit is routed exactly once, notes first: the
notes-only shell receives precisely the units whose hints match a notes
pattern (even when they also match alt patterns), the main shell receives
precisely the units matching neither pattern set, and no unit is in both
outputs. -/
theorem C3_partition_notes_priority_disjoint :
    ∀ (units : List TransUnit) (np ap : List (String → Bool)),
      (filter_xliff units np ap).1 =
        units.filter (fun u => matches_any (contexts_for_tu u) np) ∧
      (filter_xliff units np ap).2 =
        units.filter (fun u => !matches_any (contexts_for_tu u) np &&
                               !matches_any (contexts_for_tu u) ap) ∧
      ∀ u : TransUnit,
        ¬(u ∈ (filter_xliff units np ap).1 ∧ u ∈ (filter_xliff units np ap).2) := by
  intro units np ap
  refine ⟨filter_xliff_fst units np ap, filter_xliff_snd units np ap, ?_⟩
  rintro u ⟨h1, h2⟩
  rw [filter_xliff_fst units np ap] at h1
  rw [filter_xliff_snd units np ap] at h2
  have g1 := (List.mem_filter.mp h1).2
  have g2 := (List.mem_filter.mp h2).2
  simp only [isNotesUnit] at g1
  simp [isMainUnit, g1] at g2

/-- C2.  With the include-alt-text flag false, an attribute whose value
contains the AltText marker still produces its record: the suppression
loop in the source only breaks and changes no state, contradicting its own
comment, so nothing is suppressed. -/
theorem C2_alttext_attribute_record_not_suppressed :
    walk_xml_collect (XmlTree.mk "p" [("alt", "See .AltText 1")] none none []) "f" false
      = [("f", "/p/@alt", "See .AltText 1")] := by decide

/-! ### Skip-tag pruning -/

theorem walkElem_eq_nil_of_skip (fid : String) (inc : Bool) (path : List String)
    (e : XmlTree) (h : SKIP_TAGS.contains (stripNs e.tag) = true) :
    walkElem fid inc path e = [] := by
  cases e with
  | mk tag0 attrs0 text0 tail0 children =>
    simp only [XmlTree.tag] at h
    have h2 : stripNs tag0 ∈ SKIP_TAGS := by simpa using h
    simp [walkElem, h2]

theorem walkForest_append (fid : String) (inc : Bool) (path : List String) :
    ∀ l1 l2 : List XmlTree,
      walkForest fid inc path (l1 ++ l2) =
        walkForest fid inc path l1 ++ walkForest fid inc path l2 := by
  intro l1 l2
  induction l1 with
  | nil => simp [walkForest]
  | cons c cs ih => simp [walkForest, ih]

/-- C10.  An element whose namespace-stripped tag is in the skip set emits
no record at all: not for its text, attributes or descendants, and not for
its tail either; removing it from its parent changes nothing in the
output. -/
theorem C10_skip_tags_prune :
    ∀ (fid : String) (inc : Bool) (path : List String) (e : XmlTree),
      SKIP_TAGS.contains (stripNs e.tag) = true →
      walkElem fid inc path e = [] ∧
      ∀ (tag : String) (attrs : List (String × String)) (txt tl : Option String)
        (l1 l2 : List XmlTree),
        walkElem fid inc path (XmlTree.mk tag attrs txt tl (l1 ++ e :: l2)) =
          walkElem fid inc path (XmlTree.mk tag attrs txt tl (l1 ++ l2)) := by
  intro fid inc path e h
  refine ⟨walkElem_eq_nil_of_skip fid inc path e h, ?_⟩
  intro tag attrs txt tl l1 l2
  simp only [walkElem]
  split
  · rfl
  · have : walkForest fid inc (path ++ [stripNs tag]) (l1 ++ e :: l2) =
        walkForest fid inc (path ++ [stripNs tag]) (l1 ++ l2) := by
      rw [walkForest_append, walkForest_append]
      show _ ++ (walkElem fid inc _ e ++ _) = _
      rw [walkElem_eq_nil_of_skip fid inc _ e h]
      simp
    rw [this]

/-- Concrete instance of the skip-tag pruning: a script element with text,
attribute and tail yields nothing, and dropping it from a parent changes
nothing. -/
theorem C10_witness :
    walkElem "f" true []
      (XmlTree.mk "script" [("alt", "Hello world")] (some "Hello") (some "world") []) = [] ∧
    walkElem "f" true []
      (XmlTree.mk "p" [] (some "Hi") none
        ([] ++ XmlTree.mk "script" [("alt", "Hello world")] (some "Hello") (some "world") [] :: [])) =
    walkElem "f" true [] (XmlTree.mk "p" [] (some "Hi") none ([] ++ [])) := by
  have h := C10_skip_tags_prune "f" true []
    (XmlTree.mk "script" [("alt", "Hello world")] (some "Hello") (some "world") [])
    (by decide)
  exact ⟨h.1, h.2 "p" [] (some "Hi") none [] []⟩

/-! ### Media tallies -/

/-- An entry counted as an image. -/
def entImage (e : ZipEntry) : Bool := isImageName (pyLower e.filename)

/-- An entry counted as audio (not already counted as an image). -/
def entAudio (e : ZipEntry) : Bool :=
  !entImage e && isAudioName (pyLower e.filename)

/-- An entry counted as video. -/
def entVideo (e : ZipEntry) : Bool :=
  !entImage e && !isAudioName (pyLower e.filename) && isVideoName (pyLower e.filename)

/-- An entry counted as other: non-directory, no media extension, and not
a text-bearing (.xml/.htm/.html/.json) name. -/
def entOther (e : ZipEntry) : Bool :=
  !entImage e && !isAudioName (pyLower e.filename) && !isVideoName (pyLower e.filename) &&
  !e.isDir && !isTextName (pyLower e.filename)

theorem mediaStep_fold_counts : ∀ (entries : List ZipEntry) (m0 : MediaCounts),
    entries.foldl mediaStep m0 =
      MediaCounts.mk (m0.images + entries.countP entImage)
        (m0.audio + entries.countP entAudio)
        (m0.video + entries.countP entVideo)
        (m0.other + entries.countP entOther) := by
  intro entries
  induction entries with
  | nil => intro m0; simp
  | cons e rest ih =>
    intro m0
    simp only [List.foldl_cons, List.countP_cons]
    rw [ih]
    by_cases hI : isImageName (pyLower e.filename)
    · simp [mediaStep, entImage, entAudio, entVideo, entOther, hI,
        MediaCounts.mk.injEq]
      all_goals omega
    · by_cases hA : isAudioName (pyLower e.filename)
      · simp [mediaStep, entImage, entAudio, entVideo, entOther, hI, hA,
          MediaCounts.mk.injEq]
        all_goals omega
      · by_cases hV : isVideoName (pyLower e.filename)
        · simp [mediaStep, entImage, entAudio, entVideo, entOther, hI, hA, hV,
            MediaCounts.mk.injEq]
          all_goals omega
        · by_cases hO : !e.isDir && !isTextName (pyLower e.filename)
          · simp [mediaStep, entImage, entAudio, entVideo, entOther, hI, hA, hV, hO,
              MediaCounts.mk.injEq]
            all_goals omega
          · simp [mediaStep, entImage, entAudio, entVideo, entOther, hI, hA, hV, hO,
              MediaCounts.mk.injEq]
            all_goals omega

theorem combined_foldl_snd (et : List Nat → Option XmlTree)
    (jl : List Nat → Option PyJson) (flag : Bool) :
    ∀ (entries : List ZipEntry) (r0 : List Row) (m0 : MediaCounts),
      (entries.foldl (scanStep et jl flag) (r0, m0)).2 =
        entries.foldl mediaStep m0 := by
  intro entries
  induction entries with
  | nil => intro r0 m0; rfl
  | cons e rest ih =>
    intro r0 m0
    rw [List.foldl_cons, List.foldl_cons]
    exact ih _ _

theorem combined_foldl_fst (et : List Nat → Option XmlTree)
    (jl : List Nat → Option PyJson) (flag : Bool) :
    ∀ (entries : List ZipEntry) (r0 : List Row) (m0 : MediaCounts),
      (entries.foldl (scanStep et jl flag) (r0, m0)).1 =
        r0 ++ (entries.map (entryRows et jl flag)).flatten := by
  intro entries
  induction entries with
  | nil => intro r0 m0; simp
  | cons e rest ih =>
    intro r0 m0
    rw [List.foldl_cons]
    show (rest.foldl (scanStep et jl flag) (r0 ++ entryRows et jl flag e, mediaStep m0 e)).1 = _
    rw [ih]
    simp

theorem extract_story_snd (et : List Nat → Option XmlTree)
    (jl : List Nat → Option PyJson) (entries : List ZipEntry) (flag : Bool) :
    (extract_rows_from_story et jl entries flag).2 =
      entries.foldl mediaStep (MediaCounts.mk 0 0 0 0) := by
  unfold extract_rows_from_story
  exact combined_foldl_snd et jl flag entries [] _

theorem extract_story_fst (et : List Nat → Option XmlTree)
    (jl : List Nat → Option PyJson) (entries : List ZipEntry) (flag : Bool) :
    (extract_rows_from_story et jl entries flag).1 =
      sortRows (dedupRows ((entries.map (entryRows et jl flag)).flatten)) := by
  unfold extract_rows_from_story
  rw [combined_foldl_fst et jl flag entries [] _]
  simp

/-- C9.  The media tally counts entries by extension: images, audio and
video by their suffix lists, and as other only the non-directory entries
with neither a media suffix nor a text-bearing suffix; each tally equals a
countP over the entry list, hence extending the entry list never decreases
any tally. -/
theorem C9_media_tally_counts :
    ∀ (et : List Nat → Option XmlTree) (jl : List Nat → Option PyJson)
      (entries more : List ZipEntry) (flag : Bool),
      (extract_rows_from_story et jl entries flag).2 =
        MediaCounts.mk (entries.countP entImage) (entries.countP entAudio)
          (entries.countP entVideo) (entries.countP entOther) ∧
      (extract_rows_from_story et jl entries flag).2.images ≤
        (extract_rows_from_story et jl (entries ++ more) flag).2.images ∧
      (extract_rows_from_story et jl entries flag).2.audio ≤
        (extract_rows_from_story et jl (entries ++ more) flag).2.audio ∧
      (extract_rows_from_story et jl entries flag).2.video ≤
        (extract_rows_from_story et jl (entries ++ more) flag).2.video ∧
      (extract_rows_from_story et jl entries flag).2.other ≤
        (extract_rows_from_story et jl (entries ++ more) flag).2.other := by
  intro et jl entries more flag
  have h1 : (extract_rows_from_story et jl entries flag).2 =
      MediaCounts.mk (entries.countP entImage) (entries.countP entAudio)
        (entries.countP entVideo) (entries.countP entOther) := by
    rw [extract_story_snd, mediaStep_fold_counts]
    simp
  have h2 : (extract_rows_from_story et jl (entries ++ more) flag).2 =
      MediaCounts.mk ((entries ++ more).countP entImage) ((entries ++ more).countP entAudio)
        ((entries ++ more).countP entVideo) ((entries ++ more).countP entOther) := by
    rw [extract_story_snd, mediaStep_fold_counts]
    simp
  refine ⟨h1, ?_, ?_, ?_, ?_⟩ <;>
    simp [h1, h2, List.countP_append] <;> omega

/-- C9 fails as stated: a single non-directory entry named a.xml is not in
any media category, yet the other tally stays 0 because text-bearing names
are excluded from the other branch. -/
theorem C9_counterexample :
    ([ZipEntry.mk "a.xml" false (some [0])].countP (fun e => !e.isDir) = 1) ∧
    (extract_rows_from_story (fun _ => none) (fun _ => none)
        [ZipEntry.mk "a.xml" false (some [0])] true).2.other = 0 := by
  constructor
  · rfl
  · decide

/-! ### The parse fallback -/

theorem parse_xml_bytes_retry (et : List Nat → Option XmlTree) (d : List Nat)
    (h : et d = none) : parse_xml_bytes et d = et (clean_bytes d) := by
  unfold parse_xml_bytes
  rw [h]
  cases et (clean_bytes d) <;> rfl

/-- C6, amended.  On a parse failure the parser is retried exactly once,
on the input with the low control bytes (below 0x20, except tab, LF and
CR) removed — bytes 0x20 through 0xFF, including all non-ASCII bytes, are
kept; when the retry also fails the entry yields no records and the run
continues on the remaining entries. -/
theorem C6_parse_retry_policy :
    (∀ (et : List Nat → Option XmlTree) (d : List Nat), et d = none →
      parse_xml_bytes et d = et (clean_bytes d)) ∧
    (∀ (d : List Nat),
      clean_bytes d = d.filter (fun b => b == 9 || b == 10 || b == 13 || (32 ≤ b && b ≤ 255))) ∧
    (∀ (et : List Nat → Option XmlTree) (jl : List Nat → Option PyJson)
      (flag : Bool) (e : ZipEntry) (d : List Nat),
      e.content = some d → strEndsWith (pyLower e.filename) ".json" = false →
      et d = none → et (clean_bytes d) = none →
      entryRows et jl flag e = []) ∧
    (∀ (et : List Nat → Option XmlTree) (jl : List Nat → Option PyJson)
      (flag : Bool) (e : ZipEntry) (rest : List ZipEntry),
      entryRows et jl flag e = [] →
      (extract_rows_from_story et jl (e :: rest) flag).1 =
        (extract_rows_from_story et jl rest flag).1) := by
  refine ⟨parse_xml_bytes_retry, fun d => rfl, ?_, ?_⟩
  · intro et jl flag e d hc hjson h1 h2
    unfold entryRows
    cases htext : isTextName (pyLower e.filename) && !e.isDir with
    | false => simp [htext]
    | true =>
      simp only [htext, if_true, hc]
      rw [hjson]
      simp only [Bool.false_eq_true, if_false]
      rw [parse_xml_bytes_retry et d h1, h2]
  · intro et jl flag e rest h
    rw [extract_story_fst, extract_story_fst]
    simp [h]

/-- Concrete instance of the fallback policy: an oracle failing on both
attempts yields no records for the entry and leaves the rest of the run
unchanged. -/
theorem C6_witness :
    parse_xml_bytes (fun _ => none) [0] = (fun _ => (none : Option XmlTree)) (clean_bytes [0]) ∧
    entryRows (fun _ => none) (fun _ => none) true (ZipEntry.mk "a.xml" false (some [0])) = [] ∧
    (extract_rows_from_story (fun _ => none) (fun _ => none)
        [ZipEntry.mk "a.xml" false (some [0]), ZipEntry.mk "b.xml" false (some [7])] true).1 =
      (extract_rows_from_story (fun _ => none) (fun _ => none)
        [ZipEntry.mk "b.xml" false (some [7])] true).1 := by
  refine ⟨C6_parse_retry_policy.1 _ _ rfl, ?_, ?_⟩
  · exact C6_parse_retry_policy.2.2.1 _ _ true (ZipEntry.mk "a.xml" false (some [0])) [0]
      rfl (by decide) rfl rfl
  · exact C6_parse_retry_policy.2.2.2 _ _ true (ZipEntry.mk "a.xml" false (some [0])) _
      (C6_parse_retry_policy.2.2.1 _ _ true (ZipEntry.mk "a.xml" false (some [0])) [0]
        rfl (by decide) rfl rfl)

/-- C6 fails as stated: the cleaning keeps byte 0x80, which is outside
printable ASCII, so the retry input is not the ASCII-filtered one; an
oracle succeeding only on the uncleaned high byte shows the retry input
still contains it, while the spec-described filter would have removed it. -/
theorem C6_counterexample :
    clean_bytes [0, 128] = [128] ∧
    spec_ascii_clean [0, 128] = [] ∧
    parse_xml_bytes
        (fun d => if d == [128] then some (XmlTree.mk "r" [] none none []) else none)
        [0, 128] = some (XmlTree.mk "r" [] none none []) ∧
    (fun d => if d == [128] then some (XmlTree.mk "r" [] none none []) else none)
        (spec_ascii_clean [0, 128]) = none := by
  exact ⟨rfl, rfl, rfl, rfl⟩

/-! ### JSON walker paths -/

mutual

/-- All key/value pairs of the mappings anywhere inside a JSON value. -/
def fieldsOfJson : PyJson → List PyField
  | .obj kvs => kvs ++ fieldsOfList kvs
  | .arr xs => fieldsOfArr xs
  | _ => []

/-- All key/value pairs of the mappings inside a field list. -/
def fieldsOfList : List PyField → List PyField
  | [] => []
  | .mk _ v :: rest => fieldsOfJson v ++ fieldsOfList rest

/-- All key/value pairs of the mappings inside a sequence. -/
def fieldsOfArr : List PyJson → List PyField
  | [] => []
  | x :: rest => fieldsOfJson x ++ fieldsOfArr rest

end

theorem mem_ite_singleton {c : Prop} [Decidable c] {r x : Row}
    (h : r ∈ (if c then [x] else [])) : r = x := by
  split at h
  · simpa using h
  · simp at h

mutual

theorem extract_paths : ∀ (doc : PyJson) (fid : String) (r : Row),
    r ∈ extract_from_json doc fid →
    ∃ k v, PyField.mk k v ∈ fieldsOfJson doc ∧
      r = (fid, "$." ++ k, normalize_text (pyStr v))
  | .obj kvs, fid, r, h => by
    obtain ⟨k, v, hm, he⟩ := jsonPairs_paths kvs fid r h
    exact ⟨k, v, by simpa [fieldsOfJson] using hm, he⟩
  | .arr xs, fid, r, h => by
    obtain ⟨k, v, hm, he⟩ := jsonArr_paths xs fid r h
    exact ⟨k, v, by simpa [fieldsOfJson] using hm, he⟩
  | .str s, fid, r, h => by simp [extract_from_json] at h
  | .int n, fid, r, h => by simp [extract_from_json] at h
  | .bool b, fid, r, h => by simp [extract_from_json] at h
  | .null, fid, r, h => by simp [extract_from_json] at h

theorem jsonPairs_paths : ∀ (kvs : List PyField) (fid : String) (r : Row),
    r ∈ jsonPairs kvs fid →
    ∃ k v, PyField.mk k v ∈ kvs ++ fieldsOfList kvs ∧
      r = (fid, "$." ++ k, normalize_text (pyStr v))
  | [], fid, r, h => by simp [jsonPairs] at h
  | .mk k0 v0 :: rest, fid, r, h => by
    have tailStep : r ∈ jsonPairs rest fid →
        ∃ k v, PyField.mk k v ∈
            (PyField.mk k0 v0 :: rest) ++ fieldsOfList (PyField.mk k0 v0 :: rest) ∧
          r = (fid, "$." ++ k, normalize_text (pyStr v)) := by
      intro hr
      obtain ⟨k, v, hm, he⟩ := jsonPairs_paths rest fid r hr
      refine ⟨k, v, ?_, he⟩
      simp only [fieldsOfList, List.mem_append, List.mem_cons] at hm ⊢
      tauto
    cases v0 with
    | obj kvs2 =>
      simp only [jsonPairs] at h
      rcases List.mem_append.1 h with h1 | h2
      · obtain ⟨k, v, hm, he⟩ := jsonPairs_paths kvs2 fid r h1
        refine ⟨k, v, ?_, he⟩
        simp only [fieldsOfList, fieldsOfJson, List.mem_append, List.mem_cons] at hm ⊢
        tauto
      · exact tailStep h2
    | arr xs =>
      simp only [jsonPairs] at h
      rcases List.mem_append.1 h with h1 | h2
      · obtain ⟨k, v, hm, he⟩ := jsonArr_paths xs fid r h1
        refine ⟨k, v, ?_, he⟩
        simp only [fieldsOfList, fieldsOfJson, List.mem_append, List.mem_cons] at hm ⊢
        tauto
      · exact tailStep h2
    | null =>
      simp only [jsonPairs] at h
      rcases List.mem_append.1 h with h1 | h2
      · simp at h1
      · exact tailStep h2
    | str sv =>
      simp only [jsonPairs] at h
      rcases List.mem_append.1 h with h1 | h2
      · exact ⟨k0, .str sv, by simp, mem_ite_singleton h1⟩
      · exact tailStep h2
    | int nv =>
      simp only [jsonPairs] at h
      rcases List.mem_append.1 h with h1 | h2
      · exact ⟨k0, .int nv, by simp, mem_ite_singleton h1⟩
      · exact tailStep h2
    | bool bv =>
      simp only [jsonPairs] at h
      rcases List.mem_append.1 h with h1 | h2
      · exact ⟨k0, .bool bv, by simp, mem_ite_singleton h1⟩
      · exact tailStep h2

theorem jsonArr_paths : ∀ (xs : List PyJson) (fid : String) (r : Row),
    r ∈ jsonArr xs fid →
    ∃ k v, PyField.mk k v ∈ fieldsOfArr xs ∧
      r = (fid, "$." ++ k, normalize_text (pyStr v))
  | [], fid, r, h => by simp [jsonArr] at h
  | x :: rest, fid, r, h => by
    rw [jsonArr] at h
    rcases List.mem_append.1 h with h1 | h2
    · obtain ⟨k, v, hm, he⟩ := extract_paths x fid r h1
      refine ⟨k, v, ?_, he⟩
      simp only [fieldsOfArr, List.mem_append]
      tauto
    · obtain ⟨k, v, hm, he⟩ := jsonArr_paths rest fid r h2
      refine ⟨k, v, ?_, he⟩
      simp only [fieldsOfArr, List.mem_append]
      tauto

end

/-- C5, amended.  Every record the hierarchical data walker emits carries
the path dollar-dot-key where the key is the IMMEDIATE key of the scalar
value inside whichever mapping holds it; the recursion passes no path, so
ancestor keys are discarded and never appear in the emitted path. -/
theorem C5_path_from_immediate_key : ∀ (doc : PyJson) (fid : String) (r : Row),
    r ∈ extract_from_json doc fid →
    ∃ k v, PyField.mk k v ∈ fieldsOfJson doc ∧
      r = (fid, "$." ++ k, normalize_text (pyStr v)) :=
  extract_paths

/-- Concrete instance: the record for the nested value Hello carries path
built from its immediate key b only. -/
theorem C5_witness :
    ∃ k v, PyField.mk k v ∈ fieldsOfJson
        (PyJson.obj [PyField.mk "a" (PyJson.obj [PyField.mk "b" (PyJson.str "Hello")])]) ∧
      (("f", "$.b", "Hello") : Row) = ("f", "$." ++ k, normalize_text (pyStr v)) :=
  C5_path_from_immediate_key
    (PyJson.obj [PyField.mk "a" (PyJson.obj [PyField.mk "b" (PyJson.str "Hello")])])
    "f" ("f", "$.b", "Hello") (by decide)

/-- C5 fails as stated: for the nested mapping a maps-to (b maps-to Hello)
the sole emitted record has path dollar-dot-b, not the ancestor-extended
dollar-dot-a-dot-b the claim describes. -/
theorem C5_counterexample :
    extract_from_json
        (PyJson.obj [PyField.mk "a" (PyJson.obj [PyField.mk "b" (PyJson.str "Hello")])]) "f"
      = [("f", "$.b", "Hello")] ∧ ("$.b" : String) ≠ "$.a.b" := by
  constructor
  · decide
  · decide

/-! ### Whitespace canonicalization -/

/-- The whitespace/NBSP stage of normalize_text, without the entity
decoding: NBSP to space, collapse runs, strip the ends. -/
def wsStage (s : String) : String :=
  ⟨pyStrip (subWsAux false (s.data.map fun c => if c == Char.ofNat 160 then SP else c))⟩

theorem subWsAux_ws_eq_sp : ∀ (u : List Char) (b : Bool) (c : Char),
    c ∈ subWsAux b u → pyIsSpace c = true → c = SP := by
  intro u
  induction u with
  | nil => intro b c hc; simp [subWsAux] at hc
  | cons x xs ih =>
    intro b c hc hw
    by_cases hx : pyIsSpace x = true
    · simp only [subWsAux, hx, if_true] at hc
      cases b with
      | true => exact ih true c hc hw
      | false =>
        rcases List.mem_cons.1 hc with h | h
        · exact h
        · exact ih true c h hw
    · simp only [subWsAux, hx] at hc
      rcases List.mem_cons.1 (by simpa using hc) with h | h
      · exact absurd (h ▸ hw) (by simpa using hx)
      · exact ih false c h hw

theorem pyIsSpace_SP : pyIsSpace SP = true := by decide

theorem subWsAux_head_true : ∀ u : List Char, (subWsAux true u).head? ≠ some SP := by
  intro u
  induction u with
  | nil => simp [subWsAux]
  | cons x xs ih =>
    by_cases hx : pyIsSpace x = true
    · simpa [subWsAux, hx] using ih
    · simp only [subWsAux, hx, if_false, Bool.false_eq_true]
      intro hc
      have : x = SP := by simpa using hc
      exact hx (this ▸ pyIsSpace_SP)

theorem subWsAux_chain : ∀ (u : List Char) (b : Bool),
    List.Chain' (fun a c => ¬(a = SP ∧ c = SP)) (subWsAux b u) := by
  intro u
  induction u with
  | nil => intro b; simp [subWsAux]
  | cons x xs ih =>
    intro b
    by_cases hx : pyIsSpace x = true
    · cases b with
      | true => simpa [subWsAux, hx] using ih true
      | false =>
        simp only [subWsAux, hx, if_true]
        refine List.chain'_cons'.2 ⟨?_, ih true⟩
        intro y hy
        rintro ⟨-, hy2⟩
        exact subWsAux_head_true xs (by simp [← hy2, List.head?_eq_some_iff] at hy ⊢; exact hy)
    · simp only [subWsAux, hx, if_false, Bool.false_eq_true]
      refine List.chain'_cons'.2 ⟨?_, ih false⟩
      intro y hy
      rintro ⟨hx2, -⟩
      exact hx (hx2 ▸ pyIsSpace_SP)

theorem head?_dropWhile_not_sp {p : Char → Bool} : ∀ (l : List Char) (c : Char),
    (l.dropWhile p).head? = some c → p c = false := by
  intro l
  induction l with
  | nil => intro c h; simp at h
  | cons x xs ih =>
    intro c h
    by_cases hx : p x = true
    · rw [List.dropWhile_cons_of_pos hx] at h
      exact ih c h
    · rw [List.dropWhile_cons_of_neg hx] at h
      simp only [List.head?] at h
      injection h with h
      subst h
      simpa using hx

theorem chain_symm_reverse {l : List Char}
    (h : List.Chain' (fun a c => ¬(a = SP ∧ c = SP)) l) :
    List.Chain' (fun a c => ¬(a = SP ∧ c = SP)) l.reverse := by
  rw [List.chain'_reverse]
  exact h.imp (fun a c hac => by rintro ⟨h1, h2⟩; exact hac ⟨h2, h1⟩)

theorem mem_pyStrip {c : Char} : ∀ l : List Char, c ∈ pyStrip l → c ∈ l := by
  intro l h
  unfold pyStrip pyDropTrail at h
  have h1 := List.mem_reverse.1 h
  have h2 := (List.dropWhile_suffix pyIsSpace).mem h1
  have h3 := List.mem_reverse.1 h2
  exact (List.dropWhile_suffix pyIsSpace).mem h3

theorem chain_pyStrip {l : List Char}
    (h : List.Chain' (fun a c => ¬(a = SP ∧ c = SP)) l) :
    List.Chain' (fun a c => ¬(a = SP ∧ c = SP)) (pyStrip l) := by
  unfold pyStrip pyDropTrail
  apply chain_symm_reverse
  apply List.Chain'.suffix _ (List.dropWhile_suffix pyIsSpace)
  apply chain_symm_reverse
  exact (h.suffix (List.dropWhile_suffix pyIsSpace))

theorem pyStrip_head_not_space : ∀ (l : List Char) (c : Char),
    (pyStrip l).head? = some c → pyIsSpace c = false := by
  intro l c h
  unfold pyStrip pyDropTrail at h
  have hpre : ((l.dropWhile pyIsSpace).reverse.dropWhile pyIsSpace).reverse <+:
      l.dropWhile pyIsSpace := by
    have hsuf := List.dropWhile_suffix (l := (l.dropWhile pyIsSpace).reverse) pyIsSpace
    have h2 := List.reverse_prefix.2 hsuf
    simpa using h2
  obtain ⟨t, ht⟩ := hpre
  have hhead : (l.dropWhile pyIsSpace).head? = some c := by
    rw [← ht, List.head?_append, h]
    rfl
  exact head?_dropWhile_not_sp l c hhead

theorem pyStrip_last_not_space : ∀ (l : List Char) (c : Char),
    (pyStrip l).getLast? = some c → pyIsSpace c = false := by
  intro l c h
  unfold pyStrip pyDropTrail at h
  rw [List.getLast?_reverse] at h
  exact head?_dropWhile_not_sp _ c h

theorem subWsAux_eq_self : ∀ l : List Char,
    (∀ c ∈ l, pyIsSpace c = true → c = SP) →
    List.Chain' (fun a c => ¬(a = SP ∧ c = SP)) l →
    subWsAux false l = l ∧ (l.head? ≠ some SP → subWsAux true l = l) := by
  intro l
  induction l with
  | nil => intro _ _; exact ⟨rfl, fun _ => rfl⟩
  | cons x xs ih =>
    intro hall hch
    obtain ⟨ihf, iht⟩ := ih (fun c hc hw => hall c (List.mem_cons_of_mem _ hc) hw) hch.tail
    by_cases hx : pyIsSpace x = true
    · have hxsp : x = SP := hall x (List.mem_cons_self _ _) hx
      subst hxsp
      have hhd : xs.head? ≠ some SP := by
        intro hc
        have := (List.chain'_cons'.1 hch).1 SP hc
        exact this ⟨rfl, rfl⟩
      constructor
      · show subWsAux false (SP :: xs) = SP :: xs
        simp [subWsAux, pyIsSpace_SP, iht hhd]
      · intro hne
        exact (hne rfl).elim
    · have hres : subWsAux false (x :: xs) = x :: xs := by
        simp [subWsAux, hx, ihf]
      refine ⟨hres, fun _ => ?_⟩
      simp [subWsAux, hx, ihf]

theorem dropWhile_eq_self_of_head {l : List Char}
    (h : ∀ c, l.head? = some c → pyIsSpace c = false) : l.dropWhile pyIsSpace = l := by
  cases l with
  | nil => rfl
  | cons x xs =>
    have := h x rfl
    rw [List.dropWhile_cons_of_neg (by simp [this])]

theorem pyStrip_eq_self {l : List Char}
    (hh : ∀ c, l.head? = some c → pyIsSpace c = false)
    (hl : ∀ c, l.getLast? = some c → pyIsSpace c = false) : pyStrip l = l := by
  unfold pyStrip pyDropTrail
  rw [dropWhile_eq_self_of_head hh]
  rw [dropWhile_eq_self_of_head (by simpa using hl)]
  exact List.reverse_reverse l

theorem nbspMap_eq_self {l : List Char}
    (h : ∀ c ∈ l, pyIsSpace c = true → c = SP) :
    (l.map fun c => if c == Char.ofNat 160 then SP else c) = l := by
  induction l with
  | nil => rfl
  | cons x xs ih =>
    simp only [List.map_cons]
    rw [ih (fun c hc hw => h c (List.mem_cons_of_mem _ hc) hw)]
    congr 1
    by_cases hx : x == Char.ofNat 160
    · have hx2 : x = Char.ofNat 160 := by simpa using hx
      have := h x (List.mem_cons_self _ _) (by rw [hx2]; decide)
      rw [hx2] at this
      exact absurd this (by decide)
    · simp [hx]

theorem normalize_text_canonical (s : String) :
    (∀ c ∈ (normalize_text s).data, pyIsSpace c = true → c = SP) ∧
    List.Chain' (fun a c => ¬(a = SP ∧ c = SP)) (normalize_text s).data ∧
    (∀ c, (normalize_text s).data.head? = some c → pyIsSpace c = false) ∧
    (∀ c, (normalize_text s).data.getLast? = some c → pyIsSpace c = false) := by
  unfold normalize_text
  refine ⟨?_, ?_, ?_, ?_⟩
  · intro c hc hw
    exact subWsAux_ws_eq_sp _ false c (mem_pyStrip _ hc) hw
  · exact chain_pyStrip (subWsAux_chain _ false)
  · intro c hc
    exact pyStrip_head_not_space _ c hc
  · intro c hc
    exact pyStrip_last_not_space _ c hc

theorem wsStage_normalize (s : String) : wsStage (normalize_text s) = normalize_text s := by
  obtain ⟨hall, hch, hh, hl⟩ := normalize_text_canonical s
  unfold wsStage
  rw [nbspMap_eq_self hall]
  rw [(subWsAux_eq_self _ hall hch).1]
  rw [pyStrip_eq_self hh hl]

/-! ### Every emitted record is normalized and non-noise -/

theorem ne_empty_of_not_skip {t : String} (h : should_skip_text t = false) : t ≠ "" := by
  intro he
  rw [he] at h
  exact absurd h (by decide)

theorem textRow_prop (fid : String) (path : List String) (tag : String) (txt : String) :
    ∀ r ∈ textRow fid path tag txt, r.2.2 = txt ∧ should_skip_text txt = false := by
  intro r hr
  unfold textRow at hr
  split at hr
  · rename_i hcond
    have : r = (fid, joinPath (path ++ [tag, "#text"]), txt) := by simpa using hr
    exact ⟨by rw [this], hcond.2.2⟩
  · simp at hr

theorem tailRow_prop (fid : String) (path : List String) (tag : String) (tl : String) :
    ∀ r ∈ tailRow fid path tag tl, r.2.2 = tl ∧ should_skip_text tl = false := by
  intro r hr
  unfold tailRow at hr
  split at hr
  · rename_i hcond
    have : r = (fid, joinPath (path ++ [tag, "#tail"]), tl) := by simpa using hr
    exact ⟨by rw [this], hcond.2.2⟩
  · simp at hr

theorem attrRowsOf_prop (fid : String) (path : List String) (tag : String) :
    ∀ (attrs : List (String × String)) (r : Row), r ∈ attrRowsOf fid path tag attrs →
      should_skip_text r.2.2 = false ∧ ∃ s, r.2.2 = normalize_text s := by
  intro attrs
  induction attrs with
  | nil => intro r hr; simp [attrRowsOf] at hr
  | cons kv rest ih =>
    intro r hr
    unfold attrRowsOf at hr
    split at hr
    · exact ih r hr
    · split at hr
      · rename_i hcond
        rcases List.mem_cons.1 hr with h | h
        · subst h
          exact ⟨hcond.2, ⟨kv.2, rfl⟩⟩
        · exact ih r h
      · exact ih r hr

theorem elemRows_prop (fid : String) (path : List String) (tag : String)
    (attrs : List (String × String)) (text tail : Option String) :
    ∀ r ∈ elemRows fid path tag attrs text tail,
      should_skip_text r.2.2 = false ∧ ∃ s, r.2.2 = normalize_text s := by
  intro r hr
  unfold elemRows at hr
  rcases List.mem_append.1 hr with hr1 | hr3
  · rcases List.mem_append.1 hr1 with hrt | hra
    · obtain ⟨he, hs⟩ := textRow_prop fid path tag _ r hrt
      exact ⟨he ▸ hs, ⟨text.getD "", he⟩⟩
    · exact attrRowsOf_prop fid path tag attrs r hra
  · obtain ⟨he, hs⟩ := tailRow_prop fid path tag _ r hr3
    exact ⟨he ▸ hs, ⟨tail.getD "", he⟩⟩

mutual

theorem walkElem_prop : ∀ (e : XmlTree) (fid : String) (inc : Bool)
    (path : List String) (r : Row), r ∈ walkElem fid inc path e →
    should_skip_text r.2.2 = false ∧ ∃ s, r.2.2 = normalize_text s
  | .mk tag0 attrs0 text0 tail0 children, fid, inc, path, r => by
    intro hr
    simp only [walkElem] at hr
    split at hr
    · simp at hr
    · rcases List.mem_append.1 hr with h1 | h2
      · exact elemRows_prop fid path (stripNs tag0) (stripAttrKeys attrs0) text0 tail0 r h1
      · exact walkForest_prop children fid inc (path ++ [stripNs tag0]) r h2

theorem walkForest_prop : ∀ (l : List XmlTree) (fid : String) (inc : Bool)
    (path : List String) (r : Row), r ∈ walkForest fid inc path l →
    should_skip_text r.2.2 = false ∧ ∃ s, r.2.2 = normalize_text s
  | [], fid, inc, path, r => by intro hr; simp [walkForest] at hr
  | c :: cs, fid, inc, path, r => by
    intro hr
    rw [walkForest] at hr
    rcases List.mem_append.1 hr with h1 | h2
    · exact walkElem_prop c fid inc path r h1
    · exact walkForest_prop cs fid inc path r h2

end

mutual

theorem extract_json_prop : ∀ (doc : PyJson) (fid : String) (r : Row),
    r ∈ extract_from_json doc fid →
    should_skip_text r.2.2 = false ∧ ∃ s, r.2.2 = normalize_text s
  | .obj kvs, fid, r, h => jsonPairs_prop kvs fid r h
  | .arr xs, fid, r, h => jsonArr_prop xs fid r h
  | .str s, fid, r, h => by simp [extract_from_json] at h
  | .int n, fid, r, h => by simp [extract_from_json] at h
  | .bool b, fid, r, h => by simp [extract_from_json] at h
  | .null, fid, r, h => by simp [extract_from_json] at h

theorem jsonPairs_prop : ∀ (kvs : List PyField) (fid : String) (r : Row),
    r ∈ jsonPairs kvs fid →
    should_skip_text r.2.2 = false ∧ ∃ s, r.2.2 = normalize_text s
  | [], fid, r, h => by simp [jsonPairs] at h
  | .mk k0 v0 :: rest, fid, r, h => by
    cases v0 with
    | obj kvs2 =>
      simp only [jsonPairs] at h
      rcases List.mem_append.1 h with h1 | h2
      · exact jsonPairs_prop kvs2 fid r h1
      · exact jsonPairs_prop rest fid r h2
    | arr xs =>
      simp only [jsonPairs] at h
      rcases List.mem_append.1 h with h1 | h2
      · exact jsonArr_prop xs fid r h1
      · exact jsonPairs_prop rest fid r h2
    | null =>
      simp only [jsonPairs] at h
      rcases List.mem_append.1 h with h1 | h2
      · simp at h1
      · exact jsonPairs_prop rest fid r h2
    | str sv =>
      simp only [jsonPairs] at h
      rcases List.mem_append.1 h with h1 | h2
      · split at h1
        · rename_i hcond
          have : r = (fid, "$." ++ k0, normalize_text (pyStr (PyJson.str sv))) := by
            simpa using h1
          subst this
          exact ⟨hcond.2.2.1, ⟨pyStr (PyJson.str sv), rfl⟩⟩
        · simp at h1
      · exact jsonPairs_prop rest fid r h2
    | int nv =>
      simp only [jsonPairs] at h
      rcases List.mem_append.1 h with h1 | h2
      · split at h1
        · rename_i hcond
          have : r = (fid, "$." ++ k0, normalize_text (pyStr (PyJson.int nv))) := by
            simpa using h1
          subst this
          exact ⟨hcond.2.2.1, ⟨pyStr (PyJson.int nv), rfl⟩⟩
        · simp at h1
      · exact jsonPairs_prop rest fid r h2
    | bool bv =>
      simp only [jsonPairs] at h
      rcases List.mem_append.1 h with h1 | h2
      · split at h1
        · rename_i hcond
          have : r = (fid, "$." ++ k0, normalize_text (pyStr (PyJson.bool bv))) := by
            simpa using h1
          subst this
          exact ⟨hcond.2.2.1, ⟨pyStr (PyJson.bool bv), rfl⟩⟩
        · simp at h1
      · exact jsonPairs_prop rest fid r h2

theorem jsonArr_prop : ∀ (xs : List PyJson) (fid : String) (r : Row),
    r ∈ jsonArr xs fid →
    should_skip_text r.2.2 = false ∧ ∃ s, r.2.2 = normalize_text s
  | [], fid, r, h => by simp [jsonArr] at h
  | x :: rest, fid, r, h => by
    rw [jsonArr] at h
    rcases List.mem_append.1 h with h1 | h2
    · exact extract_json_prop x fid r h1
    · exact jsonArr_prop rest fid r h2

end

theorem entryRows_prop (et : List Nat → Option XmlTree) (jl : List Nat → Option PyJson)
    (flag : Bool) (e : ZipEntry) :
    ∀ r ∈ entryRows et jl flag e,
      should_skip_text r.2.2 = false ∧ ∃ s, r.2.2 = normalize_text s := by
  intro r hr
  unfold entryRows at hr
  by_cases hc : (isTextName (pyLower e.filename) && !e.isDir) = true
  · simp only [hc, if_true] at hr
    cases hcon : e.content with
    | none => simp [hcon] at hr
    | some data =>
      simp only [hcon] at hr
      by_cases hj : strEndsWith (pyLower e.filename) ".json" = true
      · simp only [hj, if_true] at hr
        cases hjl : jl data with
        | none => simp [hjl] at hr
        | some doc =>
          simp only [hjl] at hr
          exact extract_json_prop doc e.filename r hr
      · simp only [hj, if_false, Bool.false_eq_true] at hr
        cases hp : parse_xml_bytes et data with
        | none => simp [hp] at hr
        | some root =>
          simp only [hp] at hr
          unfold walk_xml_collect at hr
          exact walkElem_prop root e.filename (!flag) [] r hr
  · simp only [hc, if_false, Bool.false_eq_true] at hr
    simp at hr

theorem extract_mem_prop (et : List Nat → Option XmlTree) (jl : List Nat → Option PyJson)
    (entries : List ZipEntry) (flag : Bool) :
    ∀ r ∈ (extract_rows_from_story et jl entries flag).1,
      should_skip_text r.2.2 = false ∧ ∃ s, r.2.2 = normalize_text s := by
  intro r hr
  rw [extract_story_fst] at hr
  have hr2 : r ∈ dedupRows ((entries.map (entryRows et jl flag)).flatten) :=
    (sortRows_perm _).mem_iff.1 hr
  have hr3 := mem_dedupRows.1 hr2
  obtain ⟨l, hl, hrl⟩ := List.mem_flatten.1 hr3
  obtain ⟨e, _, rfl⟩ := List.mem_map.1 hl
  exact entryRows_prop et jl flag e r hrl

/-! ### C7 and C1 -/

/-- C7, amended.  Every record the walkers emit has non-empty text that is
already trimmed, whitespace-collapsed and NBSP-free: applying the
whitespace/NBSP stage of the normalizer again changes nothing.  (Full
normalization is not a fixed point in general, because entity decoding can
decode further; see the counterexample.) -/
theorem C7_text_ws_canonical :
    (∀ (root : XmlTree) (fid : String) (inc : Bool) (r : Row),
        r ∈ walk_xml_collect root fid inc →
        r.2.2 ≠ "" ∧ wsStage r.2.2 = r.2.2) ∧
    (∀ (doc : PyJson) (fid : String) (r : Row),
        r ∈ extract_from_json doc fid →
        r.2.2 ≠ "" ∧ wsStage r.2.2 = r.2.2) := by
  constructor
  · intro root fid inc r hr
    obtain ⟨hskip, s, hs⟩ := walkElem_prop root fid inc [] r hr
    exact ⟨ne_empty_of_not_skip hskip, by rw [hs]; exact wsStage_normalize s⟩
  · intro doc fid r hr
    obtain ⟨hskip, s, hs⟩ := extract_json_prop doc fid r hr
    exact ⟨ne_empty_of_not_skip hskip, by rw [hs]; exact wsStage_normalize s⟩

/-- Concrete instances of the canonical-text invariant for both walkers. -/
theorem C7_witness :
    (("Hello" : String) ≠ "" ∧ wsStage "Hello" = "Hello") ∧
    (("World" : String) ≠ "" ∧ wsStage "World" = "World") :=
  ⟨C7_text_ws_canonical.1 (XmlTree.mk "p" [] (some "Hello") none []) "f" true
      ("f", "/p/#text", "Hello") (by decide),
   C7_text_ws_canonical.2 (PyJson.obj [PyField.mk "t" (PyJson.str "World")]) "f"
      ("f", "$.t", "World") (by decide)⟩

/-- C7 fails as stated: the element text, already once decoded by the
parser, normalizes to a record text containing an entity reference, and
normalizing that text again decodes it further, so the record text is not
a fixed point of the full normalizer. -/
theorem C7_counterexample :
    walk_xml_collect (XmlTree.mk "p" [] (some "&amp;amp;") none []) "f" true
      = [("f", "/p/#text", "&amp;")] ∧
    normalize_text "&amp;" ≠ "&amp;" := by
  constructor
  · decide
  · decide

theorem countRuns_pos : ∀ bs : List Bool, true ∈ bs → 1 ≤ countRuns false bs := by
  intro bs
  induction bs with
  | nil => simp
  | cons b rest ih =>
    intro h
    cases b with
    | true => simp [countRuns]
    | false =>
      have hrest : true ∈ rest := by
        rcases List.mem_cons.1 h with h1 | h1
        · exact absurd h1 (by simp)
        · exact h1
      simpa [countRuns] using ih hrest

theorem wcWordChar_not_cjk {c : Char} (h : wcWordChar c = true) : isCjkChar c = false := by
  have h2 : c.toNat ≤ 255 ∨ c.toNat = 39 := by
    simp only [wcWordChar, Bool.or_eq_true, Bool.and_eq_true, decide_eq_true_eq,
      beq_iff_eq] at h
    omega
  simp only [isCjkChar, Bool.or_eq_false_iff, Bool.and_eq_false_iff,
    decide_eq_false_iff_not]
  omega

theorem word_count_pos {s : String}
    (h : (s.data.any fun c => wcWordChar c || isCjkChar c) = true) :
    1 ≤ word_count s := by
  obtain ⟨c, hc, hcw⟩ := List.any_eq_true.1 h
  have hnil : s.data ≠ [] := fun he => by simp [he] at hc
  have hsne : (s == "") = false := by
    cases hbe : s == "" with
    | true =>
      have hse : s = "" := beq_iff_eq.1 hbe
      rw [hse] at hnil
      exact absurd rfl hnil
    | false => rfl
  rcases (Bool.or_eq_true _ _).mp (by simpa using hcw) with hw | hcjk
  · have hfc : (if isCjkChar c then SP else c) = c := by
      rw [if_neg]
      simp [wcWordChar_not_cjk hw]
    have hmem : true ∈ (s.data.map fun c => if isCjkChar c then SP else c).map wcWordChar := by
      have h1 : (if isCjkChar c then SP else c) ∈
          (s.data.map fun c => if isCjkChar c then SP else c) :=
        List.mem_map_of_mem _ hc
      have h2 := List.mem_map_of_mem wcWordChar h1
      rwa [hfc, hw] at h2
    have hruns := countRuns_pos _ hmem
    simp only [word_count, hsne, Bool.false_eq_true, if_false]
    omega
  · have hcnt : 0 < s.data.countP (fun c => isCjkChar c) :=
      List.countP_pos_iff.2 ⟨c, hc, hcjk⟩
    simp only [word_count, hsne, Bool.false_eq_true, if_false]
    omega

/-- C1, amended.  Every record surviving the whole extraction pipeline
(classification, dedup, sort, minimum length filter) has non-empty,
non-noise text, and whenever its text contains at least one character of
the word-count token classes (Latin letters, digits, accented Latin,
apostrophe, or CJK/Kana/Hangul) its word count is at least 1.  Text made
only of letters outside those classes (for example Cyrillic) survives with
word count 0; see the counterexample. -/
theorem C1_surviving_records :
    ∀ (et : List Nat → Option XmlTree) (jl : List Nat → Option PyJson)
      (entries : List ZipEntry) (flag : Bool) (minlen : Nat) (r : Row),
      r ∈ (extract_rows_from_story et jl entries flag).1.filter
        (fun r => decide (minlen ≤ r.2.2.length)) →
      r.2.2 ≠ "" ∧ should_skip_text r.2.2 = false ∧
        ((r.2.2.data.any fun c => wcWordChar c || isCjkChar c) = true →
          1 ≤ word_count r.2.2) := by
  intro et jl entries flag minlen r hr
  have hm := List.mem_of_mem_filter hr
  obtain ⟨hskip, -, -⟩ := extract_mem_prop et jl entries flag r hm
  exact ⟨ne_empty_of_not_skip hskip, hskip, fun ha => word_count_pos ha⟩

/-- Concrete instance: the record for Hello survives the pipeline with a
minimum length of 1 and a positive word count. -/
theorem C1_witness :
    ("Hello" : String) ≠ "" ∧ should_skip_text "Hello" = false ∧
      ((("Hello" : String).data.any fun c => wcWordChar c || isCjkChar c) = true →
        1 ≤ word_count "Hello") :=
  C1_surviving_records
    (fun d => if d == [1] then some (XmlTree.mk "text" [] (some "Hello") none []) else none)
    (fun _ => none) [ZipEntry.mk "f.xml" false (some [1])] true 1
    ("f.xml", "/text/#text", "Hello") (by decide)

/-- C1 fails as stated: a record whose text is the Cyrillic letter Zhe
survives the entire pipeline including the minimum length filter, yet its
word count is 0, because the word regex token class has no Cyrillic range
while the human-text classifier accepts Cyrillic. -/
theorem C1_counterexample :
    ((extract_rows_from_story
        (fun d => if d == [1] then some (XmlTree.mk "text" [] (some "Ж") none []) else none)
        (fun _ => none) [ZipEntry.mk "f.xml" false (some [1])] true).1.filter
      (fun r => decide (1 ≤ r.2.2.length)))
      = [("f.xml", "/text/#text", "Ж")] ∧
    word_count "Ж" = 0 := by
  constructor
  · decide
  · decide

end Storyline
